import Mathlib

/-!
Verification of the warp signing backend and relay aggregator of the
EVM-Clonev1 repository.

The signing backend is embedded from the source file containing package
`warp` (`warpBackend.AddMessage`, `warpBackend.GetSignature`,
`noopBackend`).  Bytes are modelled as `List Nat`; the external
collaborators (`hashing.ComputeHash256Array`, `TeleporterSigner.Sign`,
`teleporter.ParseUnsignedMessage`, the possibility that `database.Put`
fails) are a capability record `WarpEnv`, and the mutable state
(`database.Database` contents, `cache.LRU` contents) is a record
`WarpBackendState` threaded explicitly.

The Go `cache.LRU` is keyed by Go interface values.  `AddMessage` puts
under the key `ids.ID(messageID)` and the `GetSignature` hit path gets
under the key `messageID` (an `ids.ID`), while the `GetSignature` miss
path puts under the key `messageID[:]` (a `[]byte`).  A `[]byte` value
and an `ids.ID` value are never equal as interface values, so the model
keeps a two-constructor key type `CacheKey` to preserve that distinction.
-/

namespace WarpSpec

/-- Association-list lookup: returns the value of the first pair whose key
matches, the way a map get does. -/
def assocGet {α β : Type} [DecidableEq α] : List (α × β) → α → Option β
  | [], _ => none
  | (kv : α × β) :: l, k => if kv.1 = k then some kv.2 else assocGet l k

/-- Association-list insert: the new binding shadows any earlier binding of
the same key, the way a map put does. -/
def assocPut {α β : Type} [DecidableEq α] (l : List (α × β)) (k : α) (v : β) :
    List (α × β) :=
  (k, v) :: l

/-- `teleporter.UnsignedMessage`: an opaque payload; the backend only ever
uses its byte encoding `Bytes()`. -/
structure UnsignedMessage where
  bytes : List Nat
deriving DecidableEq, Repr

/-- A key of the Go `cache.LRU` (keyed by interface values): either an
`ids.ID` (a 32-byte array value) or a `[]byte` slice.  Values of the two
dynamic types are never equal to each other. -/
inductive CacheKey where
  | kID (b : List Nat)
  | kBytes (b : List Nat)
deriving DecidableEq, Repr

/-- The error outcomes of the backend, matching the wrapped errors the Go
code returns. -/
inductive WarpError where
  | storeError
  | notFoundError
  | decodeError
  | signError
deriving DecidableEq, Repr

/-- External capabilities of the backend: the message hash, the signer
(partial: the key may be unavailable), the unsigned-message decoder, and a
fault model for durable `db.Put`. -/
structure WarpEnv where
  hash : List Nat → List Nat
  sign : UnsignedMessage → Option (List Nat)
  parse : List Nat → Option UnsignedMessage
  dbPutOk : List Nat → List Nat → Bool

/-- The mutable state of `warpBackend`: the durable message database
(keyed by raw messageID bytes) and the signature cache. -/
structure WarpBackendState where
  db : List (List Nat × List Nat)
  cache : List (CacheKey × List Nat)
deriving DecidableEq, Repr

/-- `warpBackend.AddMessage`: computes `messageID` as the hash of the
message bytes, persists the raw bytes under `messageID[:]` (returning a
store error and leaving the state unchanged if the put fails), then signs
the message (returning a sign error with the message already persisted if
the signer fails), and finally caches the signature under the `ids.ID`
key. -/
def addMessage (env : WarpEnv) (w : WarpBackendState) (m : UnsignedMessage) :
    Option WarpError × WarpBackendState :=
  let messageID := env.hash m.bytes
  if env.dbPutOk messageID m.bytes then
    let w1 : WarpBackendState := { w with db := assocPut w.db messageID m.bytes }
    match env.sign m with
    | some signature =>
        (none, { w1 with cache := assocPut w1.cache (CacheKey.kID messageID) signature })
    | none => (some WarpError.signError, w1)
  else
    (some WarpError.storeError, w)

/-- `warpBackend.GetSignature`: answers from the cache under the `ids.ID`
key when present; otherwise loads the raw bytes from the database, parses
them, signs the parsed message, writes the signature to the cache under
the `messageID[:]` (byte-slice) key, and returns it.  Each failure is
surfaced as the corresponding error. -/
def getSignature (env : WarpEnv) (w : WarpBackendState) (messageID : List Nat) :
    Except WarpError (List Nat) × WarpBackendState :=
  match assocGet w.cache (CacheKey.kID messageID) with
  | some sig => (Except.ok sig, w)
  | none =>
    match assocGet w.db messageID with
    | none => (Except.error WarpError.notFoundError, w)
    | some unsignedMessageBytes =>
      match env.parse unsignedMessageBytes with
      | none => (Except.error WarpError.decodeError, w)
      | some unsignedMessage =>
        match env.sign unsignedMessage with
        | none => (Except.error WarpError.signError, w)
        | some signature =>
            (Except.ok signature,
             { w with cache := assocPut w.cache (CacheKey.kBytes messageID) signature })

/-- Emptying the signature cache (a node restart or full eviction). -/
def clearCache (w : WarpBackendState) : WarpBackendState :=
  { w with cache := [] }

/-- The `WarpBackend` interface: `AddMessage` and `GetSignature` over some
state type. -/
structure WarpBackendImpl (σ : Type) where
  addMessage : σ → UnsignedMessage → Option WarpError × σ
  getSignature : σ → List Nat → Except WarpError (List Nat) × σ

/-- The real backend packaged as a `WarpBackendImpl`. -/
def warpBackendImpl (env : WarpEnv) : WarpBackendImpl WarpBackendState where
  addMessage := fun w m => addMessage env w m
  getSignature := fun w id => getSignature env w id

/-- `noopBackend`: stateless, `AddMessage` returns no error, `GetSignature`
returns nil bytes and no error. -/
def noopBackend : WarpBackendImpl Unit where
  addMessage := fun s _ => (none, s)
  getSignature := fun s _ => (Except.ok [], s)

/-- Coherence of the signature cache with the durable store: every entry
reachable by the hit path (an `ids.ID` key) is the signature the signer
produces on the stored, parsed message of that id. -/
def cacheCoherent (env : WarpEnv) (w : WarpBackendState) : Prop :=
  ∀ idb sig, assocGet w.cache (CacheKey.kID idb) = some sig →
    ∃ bs m, assocGet w.db idb = some bs ∧ env.parse bs = some m ∧
      env.sign m = some sig

/-- Modelled from the spec: a `(messageID, validatorIndex, signatureShare)`
event on the ShareChannel.  The implementation of the relay
(`NewWarpRelay`, `NewWarpRelayClient`) is not among the provided source
files; only its caller in `cmd/simulator/load/sequences.go` is, so the
aggregator is modelled from the specification text. -/
structure ShareEvent where
  mid : Nat
  vidx : Nat
  share : List Nat
deriving DecidableEq, Repr

/-- Modelled from the spec: the per-message accumulation state of the
relay aggregator — the `(ValidatorIndex, SignatureShare)` pairs received
so far, in arrival order, and a completion flag. -/
structure AggregationState where
  shares : List (Nat × List Nat)
  complete : Bool
deriving DecidableEq, Repr

/-- Modelled from the spec: the aggregator state, a per-message arena of
`AggregationState` keyed by MessageID. -/
structure RelayState where
  msgs : List (Nat × AggregationState)
deriving DecidableEq, Repr

/-- Modelled from the spec: one step of the relay aggregation loop.  On
arrival of a share: if the message is already complete, discard; if the
validator index already has a recorded share, discard; otherwise record
the share, and when the number of distinct recorded shares reaches the
threshold, combine them with the aggregation capability, mark the message
complete, and emit the `(messageID, aggregateSignature)` pair. -/
def processShare (aggregate : List (Nat × List Nat) → List Nat)
    (threshold : Nat) (st : RelayState) (e : ShareEvent) :
    RelayState × Option (Nat × List Nat) :=
  let a := (assocGet st.msgs e.mid).getD { shares := [], complete := false }
  if a.complete then (st, none)
  else if e.vidx ∈ a.shares.map Prod.fst then (st, none)
  else
    let shares := a.shares ++ [(e.vidx, e.share)]
    if threshold ≤ shares.length then
      ({ msgs := assocPut st.msgs e.mid { shares := shares, complete := true } },
       some (e.mid, aggregate shares))
    else
      ({ msgs := assocPut st.msgs e.mid { shares := shares, complete := false } }, none)

/-- Modelled from the spec: the aggregation loop consuming a sequence of
ShareChannel events in arrival order, collecting the emitted aggregates. -/
def runRelay (aggregate : List (Nat × List Nat) → List Nat) (threshold : Nat)
    (st : RelayState) : List ShareEvent → RelayState × List (Nat × List Nat)
  | [] => (st, [])
  | e :: es =>
    let p := processShare aggregate threshold st e
    let r := runRelay aggregate threshold p.1 es
    (r.1, p.2.toList ++ r.2)

/-- The events of a trace that concern a given MessageID. -/
def eventsFor (es : List ShareEvent) (X : Nat) : List ShareEvent :=
  es.filter (fun e => decide (e.mid = X))

/-- The set of distinct validator indices that delivered a share for a
given MessageID in a trace. -/
def valsFor (es : List ShareEvent) (X : Nat) : Finset Nat :=
  ((eventsFor es X).map ShareEvent.vidx).toFinset

/-- How many aggregates an output stream carries for a given MessageID. -/
def countOut (out : List (Nat × List Nat)) (X : Nat) : Nat :=
  (out.filter (fun o => decide (o.1 = X))).length

/-- The inductive invariant of the relay run at one MessageID: either the
aggregator holds no state for it, the trace has no events for it, and
nothing was emitted; or the recorded shares have pairwise-distinct
validator indices and (a) when complete, exactly one aggregate was emitted
and at least `threshold` distinct validators have delivered, or (b) when
still collecting, nothing was emitted, the recorded validator indices are
exactly the distinct validators seen so far, and they number fewer than
`threshold`. -/
def invAt (threshold X : Nat) (es : List ShareEvent)
    (out : List (Nat × List Nat)) : Option AggregationState → Prop
  | none => eventsFor es X = [] ∧ countOut out X = 0
  | some a =>
      (a.shares.map Prod.fst).Nodup ∧
      (if a.complete then
         countOut out X = 1 ∧ threshold ≤ (valsFor es X).card
       else
         countOut out X = 0 ∧
         (a.shares.map Prod.fst).toFinset = valsFor es X ∧
         a.shares.length < threshold)

/-- The inductive invariant of the relay run, at every MessageID. -/
def relayInv (threshold : Nat) (es : List ShareEvent) (st : RelayState)
    (out : List (Nat × List Nat)) : Prop :=
  ∀ X : Nat, invAt threshold X es out (assocGet st.msgs X)

/-- The empty aggregator state. -/
def emptyRelay : RelayState := { msgs := [] }

/-- A concrete environment used to instantiate theorems: hash prefixes a
0, the signer prefixes a 1, parsing always succeeds, and the store never
fails. -/
def envW : WarpEnv where
  hash := fun b => 0 :: b
  sign := fun m => some (1 :: m.bytes)
  parse := fun b => some { bytes := b }
  dbPutOk := fun _ _ => true

/-- A concrete verifier matching `envW`: a share verifies over a message
when it is exactly what the signer of `envW` produces. -/
def verifyW (s : List Nat) (m : UnsignedMessage) : Bool :=
  s == 1 :: m.bytes

/-- A concrete environment whose signer always fails. -/
def envNoSign : WarpEnv where
  hash := fun b => 0 :: b
  sign := fun _ => none
  parse := fun b => some { bytes := b }
  dbPutOk := fun _ _ => true

/-- A concrete environment whose decoder always fails. -/
def envBadParse : WarpEnv where
  hash := fun b => 0 :: b
  sign := fun _ => none
  parse := fun _ => none
  dbPutOk := fun _ _ => true

/-- A concrete backend state with one stored message and an empty cache. -/
def stW : WarpBackendState := { db := [([5], [2, 3])], cache := [] }

/-- A concrete environment for exercising the miss path: hash is the
identity, the signer prefixes a 1, parsing always succeeds. -/
def envC5 : WarpEnv where
  hash := fun b => b
  sign := fun m => some (1 :: m.bytes)
  parse := fun b => some { bytes := b }
  dbPutOk := fun _ _ => true

/-- A backend state with the message `[1, 2]` persisted under its id and
an empty signature cache (the populated-store, empty-cache scenario). -/
def storeOnlyState : WarpBackendState :=
  { db := [([1, 2], [1, 2])], cache := [] }

/-- A concrete aggregation capability: concatenate the shares. -/
def concatShares (l : List (Nat × List Nat)) : List Nat :=
  (l.map Prod.snd).flatten

/-- The spec scenario trace: five distinct validators each deliver a
share for message 7. -/
def scenarioEvents : List ShareEvent :=
  [{ mid := 7, vidx := 0, share := [10] },
   { mid := 7, vidx := 1, share := [11] },
   { mid := 7, vidx := 2, share := [12] },
   { mid := 7, vidx := 3, share := [13] },
   { mid := 7, vidx := 4, share := [14] }]

/-- A concrete aggregator state holding a recorded share of validator 1
for message 7. -/
def stDup : RelayState :=
  { msgs := [(7, { shares := [(1, [11])], complete := false })] }

theorem assocGet_put_self {α β : Type} [DecidableEq α]
    (l : List (α × β)) (k : α) (v : β) :
    assocGet (assocPut l k v) k = some v := by
  simp [assocGet, assocPut]

theorem assocGet_put_ne {α β : Type} [DecidableEq α]
    (l : List (α × β)) (k k2 : α) (v : β) (h : k ≠ k2) :
    assocGet (assocPut l k v) k2 = assocGet l k2 := by
  simp [assocGet, assocPut, h]

theorem runRelay_append (aggregate : List (Nat × List Nat) → List Nat)
    (threshold : Nat) (st : RelayState) (es1 es2 : List ShareEvent) :
    runRelay aggregate threshold st (es1 ++ es2) =
      ((runRelay aggregate threshold (runRelay aggregate threshold st es1).1 es2).1,
       (runRelay aggregate threshold st es1).2 ++
         (runRelay aggregate threshold (runRelay aggregate threshold st es1).1 es2).2) := by
  induction es1 generalizing st with
  | nil => simp [runRelay]
  | cons e es ih => simp [runRelay, ih]

theorem eventsFor_append_one (es : List ShareEvent) (e : ShareEvent) (X : Nat) :
    eventsFor (es ++ [e]) X =
      eventsFor es X ++ (if e.mid = X then [e] else []) := by
  simp only [eventsFor, List.filter_append]
  split <;> simp_all

theorem countOut_append (o1 o2 : List (Nat × List Nat)) (X : Nat) :
    countOut (o1 ++ o2) X = countOut o1 X + countOut o2 X := by
  simp [countOut, List.filter_append]

theorem valsFor_append_mid (es : List ShareEvent) (e : ShareEvent) (X : Nat)
    (h : e.mid = X) :
    valsFor (es ++ [e]) X = insert e.vidx (valsFor es X) := by
  simp only [valsFor, eventsFor_append_one, h, if_pos, List.map_append,
    List.toFinset_append, List.map_cons, List.map_nil]
  rw [Finset.union_comm]
  simp [Finset.insert_eq]

theorem valsFor_append_ne (es : List ShareEvent) (e : ShareEvent) (X : Nat)
    (h : ¬ e.mid = X) :
    valsFor (es ++ [e]) X = valsFor es X := by
  simp [valsFor, eventsFor_append_one, h]

theorem invAt_frame (threshold X : Nat) (es : List ShareEvent)
    (out o : List (Nat × List Nat)) (e : ShareEvent)
    (hX : ¬ e.mid = X) (ho : countOut o X = 0)
    (oa : Option AggregationState) (h : invAt threshold X es out oa) :
    invAt threshold X (es ++ [e]) (out ++ o) oa := by
  have h1 : eventsFor (es ++ [e]) X = eventsFor es X := by
    simp [eventsFor_append_one, hX]
  have h2 := valsFor_append_ne es e X hX
  have h3 : countOut (out ++ o) X = countOut out X := by
    rw [countOut_append, ho]
    exact Nat.add_zero _
  rcases oa with _ | a
  · simpa [invAt, h1, h3] using h
  · simpa [invAt, h1, h2, h3] using h

theorem relayInv_step (aggregate : List (Nat × List Nat) → List Nat)
    (threshold : Nat) (es : List ShareEvent) (st : RelayState)
    (out : List (Nat × List Nat)) (e : ShareEvent)
    (h : relayInv threshold es st out) :
    relayInv threshold (es ++ [e]) (processShare aggregate threshold st e).1
      (out ++ ((processShare aggregate threshold st e).2).toList) := by
  have hmid := h e.mid
  rcases hm : assocGet st.msgs e.mid with _ | a
  · -- no state yet for this message: the share is the first one recorded
    rw [hm] at hmid
    obtain ⟨hev, hco⟩ := hmid
    by_cases hth : threshold ≤ 1
    · have hps : processShare aggregate threshold st e =
          ({ msgs := assocPut st.msgs e.mid
               { shares := [(e.vidx, e.share)], complete := true } },
           some (e.mid, aggregate [(e.vidx, e.share)])) := by
        simp [processShare, hm, hth]
      rw [hps]
      intro X
      by_cases hX : e.mid = X
      · subst hX
        show invAt threshold e.mid (es ++ [e]) _
          (assocGet (assocPut st.msgs e.mid _) e.mid)
        rw [assocGet_put_self]
        refine ⟨by simp, ?_⟩
        rw [if_pos rfl]
        constructor
        · rw [countOut_append, hco]
          simp [countOut]
        · rw [valsFor_append_mid es e e.mid rfl]
          have hempty : valsFor es e.mid = ∅ := by
            simp [valsFor, hev]
          rw [hempty]
          simpa using hth
      · have hget : assocGet (assocPut st.msgs e.mid
            { shares := [(e.vidx, e.share)], complete := true }) X =
            assocGet st.msgs X := assocGet_put_ne _ _ _ _ hX
        show invAt threshold X (es ++ [e]) _
          (assocGet (assocPut st.msgs e.mid _) X)
        rw [hget]
        exact invAt_frame _ _ _ _ _ _ hX (by simp [countOut, hX]) _ (h X)
    · have hps : processShare aggregate threshold st e =
          ({ msgs := assocPut st.msgs e.mid
               { shares := [(e.vidx, e.share)], complete := false } }, none) := by
        simp [processShare, hm, hth]
      rw [hps]
      intro X
      by_cases hX : e.mid = X
      · subst hX
        show invAt threshold e.mid (es ++ [e]) _
          (assocGet (assocPut st.msgs e.mid _) e.mid)
        rw [assocGet_put_self]
        refine ⟨by simp, ?_⟩
        rw [if_neg (by simp)]
        refine ⟨by rw [countOut_append, hco]; simp [countOut], ?_, ?_⟩
        · rw [valsFor_append_mid es e e.mid rfl]
          have hempty : valsFor es e.mid = ∅ := by
            simp [valsFor, hev]
          simp [hempty]
        · simpa using Nat.lt_of_not_le hth
      · have hget : assocGet (assocPut st.msgs e.mid
            { shares := [(e.vidx, e.share)], complete := false }) X =
            assocGet st.msgs X := assocGet_put_ne _ _ _ _ hX
        show invAt threshold X (es ++ [e]) _
          (assocGet (assocPut st.msgs e.mid _) X)
        rw [hget]
        exact invAt_frame _ _ _ _ _ _ hX (by simp [countOut]) _ (h X)
  · -- the message already has aggregation state
    rw [hm] at hmid
    obtain ⟨hnd, hrest⟩ := hmid
    by_cases hc : a.complete
    · -- already complete: the share is discarded, nothing is emitted
      have hps : processShare aggregate threshold st e = (st, none) := by
        simp [processShare, hm, hc]
      rw [hps]
      intro X
      by_cases hX : e.mid = X
      · subst hX
        show invAt threshold e.mid (es ++ [e]) _ (assocGet st.msgs e.mid)
        rw [hm]
        rw [if_pos hc] at hrest
        obtain ⟨h1, h2⟩ := hrest
        refine ⟨hnd, ?_⟩
        rw [if_pos hc]
        constructor
        · simpa [countOut] using h1
        · refine le_trans h2 (Finset.card_le_card ?_)
          rw [valsFor_append_mid es e e.mid rfl]
          exact Finset.subset_insert _ _
      · exact invAt_frame _ _ _ _ _ _ hX (by simp [countOut]) _ (h X)
    · rw [if_neg hc] at hrest
      obtain ⟨hout0, hset, hlen⟩ := hrest
      by_cases hmem : e.vidx ∈ a.shares.map Prod.fst
      · -- duplicate validator: the share is discarded, nothing is emitted
        have hps : processShare aggregate threshold st e = (st, none) := by
          simp [processShare, hm, hc, hmem]
        rw [hps]
        intro X
        by_cases hX : e.mid = X
        · subst hX
          show invAt threshold e.mid (es ++ [e]) _ (assocGet st.msgs e.mid)
          rw [hm]
          refine ⟨hnd, ?_⟩
          rw [if_neg hc]
          refine ⟨by simpa [countOut] using hout0, ?_, hlen⟩
          rw [valsFor_append_mid es e e.mid rfl, ← hset]
          exact (Finset.insert_eq_self.mpr (by simpa using hmem)).symm
        · exact invAt_frame _ _ _ _ _ _ hX (by simp [countOut]) _ (h X)
      · -- a new distinct validator share is recorded
        have hnd2 : ((a.shares ++ [(e.vidx, e.share)]).map Prod.fst).Nodup := by
          simp [List.nodup_append, hnd, hmem]
        have hvals : valsFor (es ++ [e]) e.mid =
            insert e.vidx ((a.shares.map Prod.fst).toFinset) := by
          rw [valsFor_append_mid es e e.mid rfl, hset]
        have hcard : (valsFor (es ++ [e]) e.mid).card = a.shares.length + 1 := by
          rw [hvals, Finset.card_insert_of_not_mem (by simpa using hmem),
            List.toFinset_card_of_nodup hnd, List.length_map]
        by_cases hth : threshold ≤ a.shares.length + 1
        · have hps : processShare aggregate threshold st e =
              ({ msgs := assocPut st.msgs e.mid
                   { shares := a.shares ++ [(e.vidx, e.share)], complete := true } },
               some (e.mid, aggregate (a.shares ++ [(e.vidx, e.share)]))) := by
            simp [processShare, hm, hc, hmem, hth]
          rw [hps]
          intro X
          by_cases hX : e.mid = X
          · subst hX
            show invAt threshold e.mid (es ++ [e]) _
              (assocGet (assocPut st.msgs e.mid _) e.mid)
            rw [assocGet_put_self]
            refine ⟨hnd2, ?_⟩
            rw [if_pos rfl]
            constructor
            · rw [countOut_append, hout0]
              simp [countOut]
            · rw [hcard]
              exact hth
          · have hget : assocGet (assocPut st.msgs e.mid
                { shares := a.shares ++ [(e.vidx, e.share)], complete := true }) X =
                assocGet st.msgs X := assocGet_put_ne _ _ _ _ hX
            show invAt threshold X (es ++ [e]) _
              (assocGet (assocPut st.msgs e.mid _) X)
            rw [hget]
            exact invAt_frame _ _ _ _ _ _ hX (by simp [countOut, hX]) _ (h X)
        · have hps : processShare aggregate threshold st e =
              ({ msgs := assocPut st.msgs e.mid
                   { shares := a.shares ++ [(e.vidx, e.share)], complete := false } },
               none) := by
            simp [processShare, hm, hc, hmem, hth]
          rw [hps]
          intro X
          by_cases hX : e.mid = X
          · subst hX
            show invAt threshold e.mid (es ++ [e]) _
              (assocGet (assocPut st.msgs e.mid _) e.mid)
            rw [assocGet_put_self]
            refine ⟨hnd2, ?_⟩
            rw [if_neg (by simp)]
            refine ⟨by simpa [countOut] using hout0, ?_, ?_⟩
            · rw [hvals]
              simp [Finset.insert_eq, Finset.union_comm]
            · show (a.shares ++ [(e.vidx, e.share)]).length < threshold
              simp only [List.length_append, List.length_cons, List.length_nil]
              omega
          · have hget : assocGet (assocPut st.msgs e.mid
                { shares := a.shares ++ [(e.vidx, e.share)], complete := false }) X =
                assocGet st.msgs X := assocGet_put_ne _ _ _ _ hX
            show invAt threshold X (es ++ [e]) _
              (assocGet (assocPut st.msgs e.mid _) X)
            rw [hget]
            exact invAt_frame _ _ _ _ _ _ hX (by simp [countOut]) _ (h X)

theorem relayInv_run (aggregate : List (Nat × List Nat) → List Nat)
    (threshold : Nat) (es : List ShareEvent) :
    relayInv threshold es (runRelay aggregate threshold emptyRelay es).1
      (runRelay aggregate threshold emptyRelay es).2 := by
  induction es using List.reverseRecOn with
  | nil =>
    intro X
    simp [runRelay, emptyRelay, assocGet, invAt, eventsFor, countOut]
  | append_singleton es e ih =>
    rw [runRelay_append]
    have hstep := relayInv_step aggregate threshold es
      (runRelay aggregate threshold emptyRelay es).1
      (runRelay aggregate threshold emptyRelay es).2 e ih
    intro X
    have hX := hstep X
    simp only [runRelay, Option.toList] at *
    convert hX using 2
    simp [runRelay]

theorem cacheCoherent_empty (env : WarpEnv) (w : WarpBackendState)
    (h : w.cache = []) : cacheCoherent env w := by
  intro idb sig hg
  rw [h] at hg
  simp [assocGet] at hg

theorem cacheCoherent_addMessage (env : WarpEnv) (w : WarpBackendState)
    (m : UnsignedMessage) (s : List Nat) (hcoh : cacheCoherent env w)
    (hparse : env.parse m.bytes = some m) (hsign : env.sign m = some s) :
    cacheCoherent env (addMessage env w m).2 := by
  by_cases hput : env.dbPutOk (env.hash m.bytes) m.bytes = true
  · have hadd : (addMessage env w m).2 =
        { db := assocPut w.db (env.hash m.bytes) m.bytes,
          cache := assocPut w.cache (CacheKey.kID (env.hash m.bytes)) s } := by
      simp [addMessage, hput, hsign]
    rw [hadd]
    intro idb sig hg
    by_cases hid : idb = env.hash m.bytes
    · subst hid
      rw [assocGet_put_self] at hg
      injection hg with hg2
      subst hg2
      exact ⟨m.bytes, m, assocGet_put_self _ _ _, hparse, hsign⟩
    · rw [assocGet_put_ne _ _ _ _
        (by intro hk; injection hk with hk2; exact hid hk2.symm)] at hg
      obtain ⟨bs, m2, hdb, hp, hs⟩ := hcoh idb sig hg
      exact ⟨bs, m2, by
        rw [assocGet_put_ne _ _ _ _ (fun hk => hid hk.symm)]
        exact hdb, hp, hs⟩
  · have hadd : (addMessage env w m).2 = w := by
      simp [addMessage, hput]
    rw [hadd]
    exact hcoh

theorem cacheCoherent_getSignature (env : WarpEnv) (w : WarpBackendState)
    (id : List Nat) (hcoh : cacheCoherent env w) :
    cacheCoherent env (getSignature env w id).2 := by
  rcases hc : assocGet w.cache (CacheKey.kID id) with _ | sig
  · rcases hdb : assocGet w.db id with _ | bs
    · have hpost : (getSignature env w id).2 = w := by
        simp [getSignature, hc, hdb]
      rw [hpost]
      exact hcoh
    · rcases hp : env.parse bs with _ | m2
      · have hpost : (getSignature env w id).2 = w := by
          simp [getSignature, hc, hdb, hp]
        rw [hpost]
        exact hcoh
      · rcases hs : env.sign m2 with _ | s2
        · have hpost : (getSignature env w id).2 = w := by
            simp [getSignature, hc, hdb, hp, hs]
          rw [hpost]
          exact hcoh
        · have hpost : (getSignature env w id).2 =
              { w with cache := assocPut w.cache (CacheKey.kBytes id) s2 } := by
            simp [getSignature, hc, hdb, hp, hs]
          rw [hpost]
          intro idb sig hg
          rw [assocGet_put_ne _ _ _ _ (by simp)] at hg
          exact hcoh idb sig hg
  · have hpost : (getSignature env w id).2 = w := by
      simp [getSignature, hc]
    rw [hpost]
    exact hcoh

/-- C1: for every unsigned message m, a successful AddMessage(m) followed
by GetSignature on the hash of m's bytes succeeds and returns exactly the
share the validator's signer produced over m; whenever the verifier
accepts every share the signer produces, that returned share verifies
against m. -/
theorem addMessage_then_getSignature_verifies
    (env : WarpEnv) (verify : List Nat → UnsignedMessage → Bool)
    (w : WarpBackendState) (m : UnsignedMessage) (s : List Nat)
    (hsound : ∀ m2 s2, env.sign m2 = some s2 → verify s2 m2 = true)
    (hput : env.dbPutOk (env.hash m.bytes) m.bytes = true)
    (hsign : env.sign m = some s) :
    (addMessage env w m).1 = none ∧
    (getSignature env (addMessage env w m).2 (env.hash m.bytes)).1 =
      Except.ok s ∧
    verify s m = true := by
  have hadd : addMessage env w m =
      (none,
       { db := assocPut w.db (env.hash m.bytes) m.bytes,
         cache := assocPut w.cache (CacheKey.kID (env.hash m.bytes)) s }) := by
    simp [addMessage, hput, hsign]
  refine ⟨by rw [hadd], ?_, hsound m s hsign⟩
  rw [hadd]
  simp [getSignature, assocGet_put_self]

/-- Witness for C1 at a concrete message and environment. -/
theorem addMessage_then_getSignature_verifies_witness :
    (addMessage envW { db := [], cache := [] } { bytes := [2, 3] }).1 = none ∧
    (getSignature envW
        (addMessage envW { db := [], cache := [] } { bytes := [2, 3] }).2
        (envW.hash [2, 3])).1 = Except.ok [1, 2, 3] ∧
    verifyW [1, 2, 3] { bytes := [2, 3] } = true :=
  addMessage_then_getSignature_verifies envW verifyW
    { db := [], cache := [] } { bytes := [2, 3] } [1, 2, 3]
    (by intro m2 s2 h
        simp only [envW, Option.some.injEq] at h
        subst h
        simp [verifyW])
    rfl rfl

/-- C4: AddMessage persists before signing or caching.  If the durable
put fails, AddMessage returns the store error and the state — database
and cache alike — is unchanged.  If the put succeeds and the signer then
fails, AddMessage returns the signing error, the message bytes are
persisted under the messageID, the cache is unchanged, and a later
GetSignature (with a decoder and a recovered signer) produces a share
from the store. -/
theorem addMessage_persist_before_cache
    (env : WarpEnv) (w : WarpBackendState) (m : UnsignedMessage) :
    (env.dbPutOk (env.hash m.bytes) m.bytes = false →
      addMessage env w m = (some WarpError.storeError, w)) ∧
    (env.dbPutOk (env.hash m.bytes) m.bytes = true → env.sign m = none →
      addMessage env w m =
        (some WarpError.signError,
         { db := assocPut w.db (env.hash m.bytes) m.bytes,
           cache := w.cache }) ∧
      assocGet (addMessage env w m).2.db (env.hash m.bytes) = some m.bytes ∧
      (addMessage env w m).2.cache = w.cache ∧
      ∀ (env2 : WarpEnv) (m2 : UnsignedMessage) (s2 : List Nat),
        assocGet w.cache (CacheKey.kID (env.hash m.bytes)) = none →
        env2.parse m.bytes = some m2 → env2.sign m2 = some s2 →
        (getSignature env2 (addMessage env w m).2 (env.hash m.bytes)).1 =
          Except.ok s2) := by
  constructor
  · intro hput
    simp [addMessage, hput]
  · intro hput hsign
    have hadd : addMessage env w m =
        (some WarpError.signError,
         { db := assocPut w.db (env.hash m.bytes) m.bytes,
           cache := w.cache }) := by
      simp [addMessage, hput, hsign]
    refine ⟨hadd, ?_, ?_, ?_⟩
    · rw [hadd]
      exact assocGet_put_self _ _ _
    · rw [hadd]
    · intro env2 m2 s2 hc hp hs
      rw [hadd]
      simp [getSignature, hc, assocGet_put_self, hp, hs]

/-- Witness for C4: the put-failure branch leaves the state untouched and
the sign-failure branch leaves the message recoverable by a later
GetSignature. -/
theorem addMessage_persist_before_cache_witness :
    addMessage { envW with dbPutOk := fun _ _ => false }
        { db := [], cache := [] } { bytes := [2, 3] } =
      (some WarpError.storeError, { db := [], cache := [] }) ∧
    (getSignature envW
        (addMessage envNoSign { db := [], cache := [] } { bytes := [2, 3] }).2
        (envNoSign.hash [2, 3])).1 = Except.ok [1, 2, 3] :=
  ⟨(addMessage_persist_before_cache { envW with dbPutOk := fun _ _ => false }
      { db := [], cache := [] } { bytes := [2, 3] }).1 rfl,
   (((addMessage_persist_before_cache envNoSign
        { db := [], cache := [] } { bytes := [2, 3] }).2 rfl rfl).2.2.2
      envW { bytes := [2, 3] } [1, 2, 3] rfl rfl rfl)⟩

/-- C7: GetSignature surfaces a not-found error when the message was
never added (cache and store both miss) and a decode error when the
stored bytes do not parse; in each case the result is that error, never a
default signature, and the state is unchanged. -/
theorem getSignature_error_paths
    (env : WarpEnv) (w : WarpBackendState) (id : List Nat) :
    (assocGet w.cache (CacheKey.kID id) = none →
      assocGet w.db id = none →
      getSignature env w id = (Except.error WarpError.notFoundError, w)) ∧
    (∀ bs, assocGet w.cache (CacheKey.kID id) = none →
      assocGet w.db id = some bs → env.parse bs = none →
      getSignature env w id = (Except.error WarpError.decodeError, w)) := by
  constructor
  · intro hc hdb
    simp [getSignature, hc, hdb]
  · intro bs hc hdb hp
    simp [getSignature, hc, hdb, hp]

/-- Witness for C7: a never-added id yields the not-found error; stored
bytes that fail to parse yield the decode error. -/
theorem getSignature_error_paths_witness :
    getSignature envW { db := [], cache := [] } [7] =
      (Except.error WarpError.notFoundError, { db := [], cache := [] }) ∧
    getSignature envBadParse { db := [([7], [9])], cache := [] } [7] =
      (Except.error WarpError.decodeError,
       { db := [([7], [9])], cache := [] }) :=
  ⟨(getSignature_error_paths envW { db := [], cache := [] } [7]).1 rfl rfl,
   (getSignature_error_paths envBadParse
      { db := [([7], [9])], cache := [] } [7]).2 [9] rfl rfl rfl⟩

/-- C8: the no-op backend satisfies the same `WarpBackendImpl` interface
as the real signing backend; its AddMessage always succeeds with no
error and its GetSignature always returns the empty signature with no
error, for every input and every (trivial) state. -/
theorem noopBackend_always_succeeds (s : Unit) (m : UnsignedMessage)
    (id : List Nat) :
    noopBackend.addMessage s m = (none, s) ∧
    noopBackend.getSignature s id = (Except.ok [], s) :=
  ⟨rfl, rfl⟩

/-- C9: GetSignature never mutates the durable message store, on the hit
path, the miss path and every error path alike. -/
theorem getSignature_preserves_store
    (env : WarpEnv) (w : WarpBackendState) (id : List Nat) :
    ((getSignature env w id).2).db = w.db := by
  unfold getSignature
  repeat' split
  all_goals rfl

/-- C10: when the signer fails, AddMessage leaves the signature cache
exactly as it was, whether or not the durable put succeeded. -/
theorem addMessage_sign_failure_cache_unchanged
    (env : WarpEnv) (w : WarpBackendState) (m : UnsignedMessage)
    (hsign : env.sign m = none) :
    ((addMessage env w m).2).cache = w.cache := by
  by_cases hput : env.dbPutOk (env.hash m.bytes) m.bytes = true
  · simp [addMessage, hput, hsign]
  · simp [addMessage, hput]

/-- Witness for C10 at a concrete failing signer. -/
theorem addMessage_sign_failure_cache_unchanged_witness :
    ((addMessage envNoSign { db := [], cache := [(CacheKey.kID [9], [4])] }
        { bytes := [2, 3] }).2).cache = [(CacheKey.kID [9], [4])] :=
  addMessage_sign_failure_cache_unchanged envNoSign
    { db := [], cache := [(CacheKey.kID [9], [4])] } { bytes := [2, 3] } rfl

/-- C5: on a cache miss with the message in the store, GetSignature does
return the recomputed share, and it does write a cache entry — but under
the byte-slice key `messageID[:]`, while the cache-hit lookup (and
AddMessage) use the `ids.ID` key.  The entry written on the miss path is
therefore not retrievable by the hit-path lookup, and a second
GetSignature for the same messageID misses the cache again and
re-signs, extending the cache once more instead of being answered from
it. -/
theorem getSignature_miss_cache_key_mismatch :
    (getSignature envC5 storeOnlyState [1, 2]).1 = Except.ok [1, 1, 2] ∧
    ((getSignature envC5 storeOnlyState [1, 2]).2).cache =
      [(CacheKey.kBytes [1, 2], [1, 1, 2])] ∧
    assocGet ((getSignature envC5 storeOnlyState [1, 2]).2).cache
      (CacheKey.kID [1, 2]) = none ∧
    ((getSignature envC5 ((getSignature envC5 storeOnlyState [1, 2]).2)
        [1, 2]).2).cache =
      [(CacheKey.kBytes [1, 2], [1, 1, 2]),
       (CacheKey.kBytes [1, 2], [1, 1, 2])] :=
  ⟨rfl, rfl, rfl, rfl⟩

/-- C6: GetSignature is deterministic: when a call returns a share from a
cache-coherent state, calling it again — on the resulting state, or on
that state with the signature cache cleared — returns byte-for-byte the
same share, because the miss path recomputes from the durably stored
bytes exactly what the hit path serves. -/
theorem getSignature_deterministic_across_cache_clear
    (env : WarpEnv) (w : WarpBackendState) (id : List Nat) (s1 : List Nat)
    (hcoh : cacheCoherent env w)
    (h1 : (getSignature env w id).1 = Except.ok s1) :
    (getSignature env ((getSignature env w id).2) id).1 = Except.ok s1 ∧
    (getSignature env (clearCache ((getSignature env w id).2)) id).1 =
      Except.ok s1 := by
  rcases hc : assocGet w.cache (CacheKey.kID id) with _ | sig
  · -- miss path: the share is recomputed from the store
    rcases hdb : assocGet w.db id with _ | bs
    · simp [getSignature, hc, hdb] at h1
    · rcases hp : env.parse bs with _ | m2
      · simp [getSignature, hc, hdb, hp] at h1
      · rcases hs : env.sign m2 with _ | s2
        · simp [getSignature, hc, hdb, hp, hs] at h1
        · have hs1 : s2 = s1 := by
            simp [getSignature, hc, hdb, hp, hs] at h1
            exact h1
          subst hs1
          have hpost : (getSignature env w id).2 =
              { w with cache :=
                  assocPut w.cache (CacheKey.kBytes id) s2 } := by
            simp [getSignature, hc, hdb, hp, hs]
          constructor
          · rw [hpost]
            have hget : assocGet
                (assocPut w.cache (CacheKey.kBytes id) s2)
                (CacheKey.kID id) = assocGet w.cache (CacheKey.kID id) :=
              assocGet_put_ne _ _ _ _ (by simp)
            simp [getSignature, hget, hc, hdb, hp, hs]
          · rw [hpost]
            simp [getSignature, clearCache, assocGet, hdb, hp, hs]
  · -- hit path: coherence ties the cached share to the stored bytes
    obtain ⟨bs, m2, hdb, hp, hs⟩ := hcoh id sig hc
    have hs1 : sig = s1 := by
      simp [getSignature, hc] at h1
      exact h1
    subst hs1
    have hpost : (getSignature env w id).2 = w := by
      simp [getSignature, hc]
    constructor
    · rw [hpost]
      simp [getSignature, hc]
    · rw [hpost]
      simp [getSignature, clearCache, assocGet, hdb, hp, hs]

/-- Witness for C6: a populated store with an empty (hence coherent)
cache returns the same share on the repeat call and on the cleared-cache
call. -/
theorem getSignature_deterministic_across_cache_clear_witness :
    (getSignature envW ((getSignature envW stW [5]).2) [5]).1 =
      Except.ok [1, 2, 3] ∧
    (getSignature envW (clearCache ((getSignature envW stW [5]).2)) [5]).1 =
      Except.ok [1, 2, 3] :=
  getSignature_deterministic_across_cache_clear envW stW [5] [1, 2, 3]
    (by intro idb sig h
        simp [stW, assocGet] at h)
    rfl

/-- C2: for every positive threshold T and every trace of share events,
the relay emits exactly one aggregate for a message when at least T
distinct validators have delivered a share for it, and none otherwise.
Instantiated at every prefix of a trace this says the aggregate appears
exactly at the arrival of the T-th distinct share — none earlier, and
shares arriving after completion are discarded without a second
aggregate. -/
theorem relay_emits_exactly_once_at_threshold
    (aggregate : List (Nat × List Nat) → List Nat) (threshold : Nat)
    (es : List ShareEvent) (X : Nat) (hth : 1 ≤ threshold) :
    countOut (runRelay aggregate threshold emptyRelay es).2 X =
      if threshold ≤ (valsFor es X).card then 1 else 0 := by
  have hinv := relayInv_run aggregate threshold es X
  rcases hg : assocGet (runRelay aggregate threshold emptyRelay es).1.msgs X
    with _ | a
  · rw [hg] at hinv
    obtain ⟨hev, hco⟩ := hinv
    have hvals : valsFor es X = ∅ := by simp [valsFor, hev]
    rw [hco, hvals]
    have hno : ¬ threshold ≤ (∅ : Finset Nat).card := by
      simp
      omega
    rw [if_neg hno]
  · rw [hg] at hinv
    obtain ⟨hnd, hrest⟩ := hinv
    by_cases hc : a.complete
    · rw [if_pos hc] at hrest
      obtain ⟨h1, h2⟩ := hrest
      rw [h1, if_pos h2]
    · rw [if_neg hc] at hrest
      obtain ⟨h1, h2, h3⟩ := hrest
      have hcard : (valsFor es X).card = a.shares.length := by
        rw [← h2, List.toFinset_card_of_nodup hnd, List.length_map]
      have hno : ¬ threshold ≤ (valsFor es X).card := by
        rw [hcard]
        omega
      rw [h1, if_neg hno]

/-- Witness for C2 on the spec scenario: threshold 4, five validators
delivering for message 7, exactly one aggregate on the output stream. -/
theorem relay_emits_exactly_once_at_threshold_witness :
    1 ≤ 4 ∧
    countOut (runRelay concatShares 4 emptyRelay scenarioEvents).2 7 =
      (if 4 ≤ (valsFor scenarioEvents 7).card then 1 else 0) ∧
    countOut (runRelay concatShares 4 emptyRelay scenarioEvents).2 7 = 1 :=
  ⟨by decide,
   relay_emits_exactly_once_at_threshold concatShares 4 scenarioEvents 7
     (by decide),
   by decide⟩

/-- C3: delivering a `(messageID, validatorIndex, share)` tuple twice
leaves the aggregator in the same AggregationState as delivering it once
and emits nothing on the second delivery; a share whose validator index
is already recorded for the message is dropped with the whole state —
all messages, all other validators — unchanged; and every reachable
AggregationState holds at most one share per validator index. -/
theorem relay_duplicate_share_idempotent
    (aggregate : List (Nat × List Nat) → List Nat) (threshold : Nat) :
    (∀ (st : RelayState) (e : ShareEvent),
       processShare aggregate threshold
           (processShare aggregate threshold st e).1 e =
         ((processShare aggregate threshold st e).1, none)) ∧
    (∀ (st : RelayState) (e : ShareEvent),
       e.vidx ∈ (((assocGet st.msgs e.mid).getD
           { shares := [], complete := false }).shares.map Prod.fst) →
       processShare aggregate threshold st e = (st, none)) ∧
    (∀ (es : List ShareEvent) (X : Nat) (a : AggregationState),
       assocGet (runRelay aggregate threshold emptyRelay es).1.msgs X =
         some a →
       (a.shares.map Prod.fst).Nodup) := by
  refine ⟨?_, ?_, ?_⟩
  · intro st e
    by_cases hc : ((assocGet st.msgs e.mid).getD
        { shares := [], complete := false }).complete
    · simp [processShare, hc]
    · by_cases hmem : e.vidx ∈ ((assocGet st.msgs e.mid).getD
          { shares := [], complete := false }).shares.map Prod.fst
      · simp [processShare, hc, hmem]
      · by_cases hth : threshold ≤ ((assocGet st.msgs e.mid).getD
            { shares := [], complete := false }).shares.length + 1
        · simp [processShare, hc, hmem, hth, assocGet_put_self]
        · simp [processShare, hc, hmem, hth, assocGet_put_self]
  · intro st e hmem
    by_cases hc : ((assocGet st.msgs e.mid).getD
        { shares := [], complete := false }).complete
    · simp [processShare, hc]
    · simp [processShare, hc, hmem]
  · intro es X a hg
    have hinv := relayInv_run aggregate threshold es X
    rw [hg] at hinv
    exact hinv.1

/-- Witness for C3: a duplicate share of validator 1 for message 7 is
discarded with the state unchanged, and the reachable state after one
event has pairwise-distinct validator indices. -/
theorem relay_duplicate_share_idempotent_witness :
    ({ mid := 7, vidx := 1, share := [99]} : ShareEvent).vidx ∈
      (((assocGet stDup.msgs 7).getD
          { shares := [], complete := false }).shares.map Prod.fst) ∧
    processShare concatShares 3 stDup
        { mid := 7, vidx := 1, share := [99] } = (stDup, none) ∧
    ((({ shares := [(1, [11])], complete := false } :
        AggregationState)).shares.map Prod.fst).Nodup :=
  ⟨by decide,
   (relay_duplicate_share_idempotent concatShares 3).2.1 stDup
     { mid := 7, vidx := 1, share := [99] } (by decide),
   (relay_duplicate_share_idempotent concatShares 3).2.2
     [{ mid := 7, vidx := 1, share := [11] }] 7
     { shares := [(1, [11])], complete := false } rfl⟩

end WarpSpec
